import Mathlib

/-
Verification of the dependency-ordered resource-lifecycle orchestrator
specified for the `example_dlp` workflow module, together with a direct
embedding of the module-level bindings of
`airflow/providers/google/cloud/example_dags/example_dlp.py`.

The generic core (Graph, ValueRef resolution, Executor) is not present in
the repository's source tree; its definitions below are modelled from the
specification's component design, as their doc comments record.  The
concrete DAG task lists and the `JOB_TRIGGER` aliasing model are translated
directly from the Python module.
-/

namespace DlpSpec

/-- Modelled from the spec: a literal parameter value (the spec's
"literal value" in a Step's params); outputs map field names to these. -/
inductive Value where
  | str (s : String)
  | int (n : Int)
deriving DecidableEq, Repr

/-- Modelled from the spec: a Step parameter is either a literal value or a
ValueRef `{sourceStep, fieldPath}` deferring to a prior step's output. -/
inductive Param where
  | lit (v : Value)
  | ref (sourceStep : String) (fieldPath : String)
deriving DecidableEq, Repr

/-- Modelled from the spec: the four ResourceClient operations. -/
inductive Operation where
  | create
  | read
  | update
  | delete
deriving DecidableEq, Repr

/-- Modelled from the spec: a Step binds a ResourceClient operation to
parameters and carries its dependency names. -/
structure Step where
  name : String
  operation : Operation
  resourceKind : String
  params : List (String × Param)
  dependsOn : List String
deriving DecidableEq, Repr

/-- Modelled from the spec: a Graph is an ordered collection of Steps
(insertion order is the list order). -/
structure Graph where
  steps : List Step
deriving DecidableEq, Repr

/-- Modelled from the spec: terminal statuses of a StepResult. -/
inductive Status where
  | succeeded
  | failed
  | skipped
deriving DecidableEq, Repr

/-- Modelled from the spec: the recorded result of one Step. -/
structure StepResult where
  stepName : String
  status : Status
  output : List (String × Value)
  error : Option String
deriving DecidableEq, Repr

/-- Modelled from the spec: RunState is the mapping from Step name to
StepResult, kept here in recording order. -/
abbrev RunState := List StepResult

/-- Modelled from the spec: the resolution error taxonomy. -/
inductive ResolutionError where
  | unresolvedReference (sourceStep : String)
  | upstreamFailed (sourceStep : String)
  | missingField (sourceStep : String) (fieldPath : String)
deriving DecidableEq, Repr

/-- Modelled from the spec: graph-construction/validation errors. -/
inductive GraphError where
  | duplicateStep
  | unknownDependency
  | cyclicDependency
  | danglingReference
deriving DecidableEq, Repr

/-- Modelled from the spec: the external ResourceClient, polymorphic over
resource kind and operation; any error is reported as a message. -/
abbrev ResourceClient :=
  Operation → String → List (String × Value) → Except String (List (String × Value))

/-- Modelled from the spec: one invocation of the bound ResourceClient
operation, as observed by the Executor. -/
structure Invocation where
  stepName : String
  operation : Operation
  resourceKind : String
  params : List (String × Value)
deriving DecidableEq, Repr

/-- Look up the recorded result for a step name in the RunState. -/
def lookupResult (st : RunState) (n : String) : Option StepResult :=
  st.find? (fun r => r.stepName == n)

/-- Modelled from the spec: resolve one parameter against the RunState
(§4.2): `UnresolvedReferenceError` when the source step has no recorded
result, `UpstreamFailedError` when that result is not `succeeded`, and
`MissingFieldError` when the field is absent from the output. -/
def resolveParam (st : RunState) : Param → Except ResolutionError Value
  | .lit v => .ok v
  | .ref src path =>
    match lookupResult st src with
    | none => .error (.unresolvedReference src)
    | some r =>
      match r.status with
      | .succeeded =>
        match r.output.find? (fun p => p.1 == path) with
        | some p => .ok p.2
        | none => .error (.missingField src path)
      | _ => .error (.upstreamFailed src)

/-- Modelled from the spec: resolve a Step's whole parameter mapping,
stopping at the first resolution error. -/
def resolveParams (st : RunState) : List (String × Param) →
    Except ResolutionError (List (String × Value))
  | [] => .ok []
  | (k, p) :: rest =>
    match resolveParam st p with
    | .error e => .error e
    | .ok v =>
      match resolveParams st rest with
      | .error e => .error e
      | .ok vs => .ok ((k, v) :: vs)

/-- A status that blocks downstream steps (`failed` or `skipped`). -/
def blockedStatus : Status → Bool
  | .failed => true
  | .skipped => true
  | .succeeded => false

/-- Whether the recorded result for dependency `d` blocks its dependents. -/
def depFlag (st : RunState) (d : String) : Bool :=
  match lookupResult st d with
  | some r => blockedStatus r.status
  | none => false

/-- Modelled from the spec: a Step is skipped when any entry of its
`dependsOn` has a recorded `failed` or `skipped` status. -/
def depBlocked (st : RunState) (step : Step) : Bool :=
  step.dependsOn.any (depFlag st)

/-- Render a resolution error as the per-step failure message. -/
def resolutionErrorMessage : ResolutionError → String
  | .unresolvedReference s => "unresolved reference to step " ++ s
  | .upstreamFailed s => "upstream step " ++ s ++ " did not succeed"
  | .missingField s f => "field " ++ f ++ " missing from output of step " ++ s

/-- The human-readable reason recorded on a skipped step. -/
def skippedMessage : String := "skipped: upstream dependency failed or was skipped"

/-- Modelled from the spec: execute one Step against the current RunState
(§4.3): skip on blocked dependencies, convert resolution errors to a
`failed` result, otherwise invoke the ResourceClient and record
`succeeded` or `failed`.  Also reports the client invocation, if any. -/
def execStep (client : ResourceClient) (st : RunState) (step : Step) :
    StepResult × Option Invocation :=
  if depBlocked st step then
    (⟨step.name, .skipped, [], some skippedMessage⟩, none)
  else
    match resolveParams st step.params with
    | .error e => (⟨step.name, .failed, [], some (resolutionErrorMessage e)⟩, none)
    | .ok resolved =>
      match client step.operation step.resourceKind resolved with
      | .ok out =>
        (⟨step.name, .succeeded, out, none⟩,
          some ⟨step.name, step.operation, step.resourceKind, resolved⟩)
      | .error msg =>
        (⟨step.name, .failed, [], some msg⟩,
          some ⟨step.name, step.operation, step.resourceKind, resolved⟩)

/-- A step is ready when all its dependencies are already emitted. -/
def readyStep (emitted : List String) (s : Step) : Bool :=
  s.dependsOn.all (fun d => decide (d ∈ emitted))

/-- Extract the first ready step (insertion order) from the remaining list. -/
def extractReady (emitted : List String) : List Step → Option (Step × List Step)
  | [] => none
  | s :: rest =>
    if readyStep emitted s then some (s, rest)
    else
      match extractReady emitted rest with
      | some (t, rest') => some (t, s :: rest')
      | none => none

/-- Kahn-style topological sort: repeatedly emit the first ready step in
insertion order; `none` when stuck with steps remaining. -/
def topoAux : Nat → List String → List Step → Option (List String)
  | _, emitted, [] => some emitted
  | 0, _, _ :: _ => none
  | fuel + 1, emitted, s :: rest0 =>
    match extractReady emitted (s :: rest0) with
    | none => none
    | some (t, rest) => topoAux fuel (emitted ++ [t.name]) rest

/-- Modelled from the spec: `topologicalOrder()` returns the Step names
with every dependency before its dependents, ties broken by insertion
order; `none` when the dependency relation has no such order. -/
def topologicalOrder (g : Graph) : Option (List String) :=
  topoAux g.steps.length [] g.steps

/-- Modelled from the spec: a ValueRef whose `sourceStep` is not listed in
the referencing Step's `dependsOn`. -/
def hasDanglingRef (g : Graph) : Bool :=
  g.steps.any (fun s => s.params.any (fun p =>
    match p.2 with
    | .ref src _ => !(s.dependsOn.contains src)
    | .lit _ => false))

/-- Modelled from the spec: `validate()` fails with `CyclicDependencyError`
on a cyclic dependency relation and with `DanglingReferenceError` on a
ValueRef outside `dependsOn`. -/
def validate (g : Graph) : Except GraphError Unit :=
  match topologicalOrder g with
  | none => .error .cyclicDependency
  | some _ => if hasDanglingRef g then .error .danglingReference else .ok ()

/-- Run the steps named by the order, threading the RunState and the
invocation log. -/
def runSteps (client : ResourceClient) (g : Graph) :
    List String → RunState → List Invocation → RunState × List Invocation
  | [], st, inv => (st, inv)
  | n :: ns, st, inv =>
    match g.steps.find? (fun s => s.name == n) with
    | none => runSteps client g ns st inv
    | some step =>
      runSteps client g ns (st ++ [(execStep client st step).1])
        (inv ++ (execStep client st step).2.toList)

/-- The run report of one Executor invocation. -/
structure RunOutcome where
  results : RunState
  invocations : List Invocation
deriving DecidableEq, Repr

/-- Modelled from the spec: `Executor.run` validates the graph, computes
the topological order, and executes every Step in that order; validation
errors abort before any Step runs. -/
def run (client : ResourceClient) (g : Graph) : Except GraphError RunOutcome :=
  match topologicalOrder g with
  | none => .error .cyclicDependency
  | some order =>
    if hasDanglingRef g then .error .danglingReference
    else
      let p := runSteps client g order [] []
      .ok ⟨p.1, p.2⟩

/-- Modelled from the spec: the derived overall status, true exactly when
no recorded StepResult is `failed`. -/
def allSucceeded (st : RunState) : Bool :=
  st.all (fun r => decide (r.status ≠ Status.failed))

/-- The recorded status of step `n` after running `g`, if the run returned. -/
def statusOf (client : ResourceClient) (g : Graph) (n : String) : Option Status :=
  match run client g with
  | .ok o => (lookupResult o.results n).map StepResult.status
  | .error _ => none

/-- The resolved parameters with which step `n` invoked the client, if any. -/
def invocationParams (client : ResourceClient) (g : Graph) (n : String) :
    Option (List (String × Value)) :=
  match run client g with
  | .ok o => (o.invocations.find? (fun i => i.stepName == n)).map Invocation.params
  | .error _ => none

/-- The direct dependency relation induced by a step list: `x` depends on
`y` when some step named `x` lists `y` in `dependsOn`. -/
def dependsOnStep (steps : List Step) (x y : String) : Prop :=
  ∃ s, s ∈ steps ∧ s.name = x ∧ y ∈ s.dependsOn

/-- Direct or transitive dependency between step names of a graph. -/
inductive TransDep (g : Graph) : String → String → Prop where
  | direct {b a : String} : dependsOnStep g.steps b a → TransDep g b a
  | step {b c a : String} :
      dependsOnStep g.steps b c → TransDep g c a → TransDep g b a

/-- Unfolding of `lookupResult` on a cons cell. -/
lemma lookup_cons (x : StepResult) (st : RunState) (n : String) :
    lookupResult (x :: st) n =
      if x.stepName == n then some x else lookupResult st n := by
  cases hx : x.stepName == n <;> simp [lookupResult, List.find?, hx]

/-- Appending records cannot change an existing lookup hit. -/
lemma lookup_append_some : ∀ {st : RunState} {n : String} {r : StepResult},
    lookupResult st n = some r → ∀ Δ : RunState, lookupResult (st ++ Δ) n = some r := by
  intro st
  induction st with
  | nil => intro n r h _; simp [lookupResult] at h
  | cons x st ih =>
    intro n r h Δ
    rw [lookup_cons] at h
    rw [List.cons_append, lookup_cons]
    by_cases hx : (x.stepName == n) = true
    · rw [if_pos hx] at h ⊢; exact h
    · rw [if_neg hx] at h ⊢; exact ih h Δ

/-- A recorded result belongs to the state and carries the looked-up name. -/
lemma lookup_mem {st : RunState} {n : String} {r : StepResult}
    (h : lookupResult st n = some r) : r ∈ st ∧ r.stepName = n := by
  refine ⟨List.mem_of_find?_eq_some h, ?_⟩
  have h2 := List.find?_some h
  simpa using h2

/-- A name recorded by no result in the state looks up to `none`. -/
lemma lookup_eq_none {st : RunState} {n : String}
    (h : ∀ r ∈ st, r.stepName ≠ n) : lookupResult st n = none := by
  apply List.find?_eq_none.mpr
  intro x hx
  simpa using h x hx

/-- A state containing a result for a name looks that name up to something. -/
lemma lookup_exists_of_mem {st : RunState} {r : StepResult} {n : String}
    (hr : r ∈ st) (hn : r.stepName = n) : ∃ r', lookupResult st n = some r' := by
  have hsome : (st.find? (fun x => x.stepName == n)).isSome = true := by
    rw [List.find?_isSome]
    exact ⟨r, hr, by simp [hn]⟩
  rcases Option.isSome_iff_exists.mp hsome with ⟨r', hr'⟩
  exact ⟨r', hr'⟩

lemma blockedStatus_iff (s : Status) :
    blockedStatus s = true ↔ s = .failed ∨ s = .skipped := by
  cases s <;> simp [blockedStatus]

lemma depFlag_iff (st : RunState) (d : String) :
    depFlag st d = true ↔
      ∃ r, lookupResult st d = some r ∧ blockedStatus r.status = true := by
  unfold depFlag
  cases h : lookupResult st d with
  | none => simp [h]
  | some r => simp [h]

lemma depBlocked_iff (st : RunState) (s : Step) :
    depBlocked st s = true ↔
      ∃ d, d ∈ s.dependsOn ∧
        ∃ r, lookupResult st d = some r ∧ blockedStatus r.status = true := by
  unfold depBlocked
  rw [List.any_eq_true]
  constructor
  · rintro ⟨d, hd, hflag⟩
    exact ⟨d, hd, (depFlag_iff st d).mp hflag⟩
  · rintro ⟨d, hd, hr⟩
    exact ⟨d, hd, (depFlag_iff st d).mpr hr⟩

/-- The result produced by `execStep` is always keyed by the step's name. -/
lemma execStep_stepName (c : ResourceClient) (st : RunState) (s : Step) :
    (execStep c st s).1.stepName = s.name := by
  unfold execStep
  split
  · rfl
  · split
    · rfl
    · split <;> rfl

/-- A skipped execution can only come from a blocked dependency. -/
lemma execStep_skipped_blocked {c : ResourceClient} {st : RunState} {s : Step}
    (h : (execStep c st s).1.status = .skipped) : depBlocked st s = true := by
  by_contra hb
  rw [Bool.not_eq_true] at hb
  unfold execStep at h
  rw [hb] at h
  simp only [Bool.false_eq_true, if_false] at h
  split at h
  · simp at h
  · split at h
    · simp at h
    · simp at h

/-- A blocked recorded dependency forces the skip branch of `execStep`. -/
lemma execStep_of_blocked (c : ResourceClient) {st : RunState} {s : Step}
    {d : String} {r : StepResult}
    (hd : d ∈ s.dependsOn) (hr : lookupResult st d = some r)
    (hb : blockedStatus r.status = true) :
    (execStep c st s).1 = ⟨s.name, .skipped, [], some skippedMessage⟩ := by
  have hblocked : depBlocked st s = true :=
    (depBlocked_iff st s).mpr ⟨d, hd, r, hr, hb⟩
  unfold execStep
  rw [hblocked]
  simp

/-- A dependency-free failure of resolution yields a failed result carrying
the resolution error's message, with no client invocation. -/
lemma execStep_of_resolution_error (c : ResourceClient) {st : RunState} {s : Step}
    {e : ResolutionError}
    (hnb : depBlocked st s = false) (hres : resolveParams st s.params = .error e) :
    execStep c st s =
      (⟨s.name, .failed, [], some (resolutionErrorMessage e)⟩, none) := by
  unfold execStep
  rw [hnb, hres]
  simp

/-- Transport a chain along an edge-wise implication that may use
membership of both endpoints. -/
lemma chain_mono_mem {R S : String → String → Prop} :
    ∀ (l : List String) (a : String), List.Chain R a l →
      (∀ x y, x ∈ a :: l → y ∈ l → R x y → S x y) → List.Chain S a l := by
  intro l
  induction l with
  | nil => intro a _ _; exact List.Chain.nil
  | cons b l ih =>
    intro a hch h
    rw [List.chain_cons] at hch ⊢
    refine ⟨h a b (by simp) (by simp) hch.1, ?_⟩
    exact ih b hch.2 (fun x y hx hy hr =>
      h x y (by rcases List.mem_cons.mp hx with h' | h' <;> simp [h']) (by simp [hy]) hr)

/-- Every node listed before the closing element of a chain is the source
of some edge of that chain. -/
lemma chain_sources {R : String → String → Prop} :
    ∀ (l : List String) (a z : String), List.Chain R a (l ++ [z]) →
      ∀ x ∈ a :: l, ∃ y, y ∈ l ++ [z] ∧ R x y := by
  intro l
  induction l with
  | nil =>
    intro a z hch x hx
    rw [List.nil_append, List.chain_cons] at hch
    rcases List.mem_cons.mp hx with h' | h'
    · exact ⟨z, by simp, h' ▸ hch.1⟩
    · simp at h'
  | cons b l ih =>
    intro a z hch x hx
    rw [List.cons_append, List.chain_cons] at hch
    rcases List.mem_cons.mp hx with h' | h'
    · exact ⟨b, by simp, h' ▸ hch.1⟩
    · rcases ih b z hch.2 x h' with ⟨y, hy, hr⟩
      refine ⟨y, ?_, hr⟩
      rw [List.cons_append]
      exact List.mem_cons.mpr (Or.inr hy)

/-- `extractReady` removes exactly one ready step, keeping the rest in
insertion order. -/
lemma extractReady_split (emitted : List String) :
    ∀ {l : List Step} {t : Step} {rest : List Step},
      extractReady emitted l = some (t, rest) →
      ∃ l1 l2, l = l1 ++ t :: l2 ∧ rest = l1 ++ l2 ∧ readyStep emitted t = true := by
  intro l
  induction l with
  | nil => intro t rest h; simp [extractReady] at h
  | cons s ss ih =>
    intro t rest h
    unfold extractReady at h
    by_cases hready : readyStep emitted s = true
    · rw [if_pos hready] at h
      simp only [Option.some.injEq, Prod.mk.injEq] at h
      obtain ⟨h1, h2⟩ := h
      subst h1; subst h2
      exact ⟨[], ss, rfl, rfl, hready⟩
    · rw [if_neg hready] at h
      cases hrec : extractReady emitted ss with
      | none => rw [hrec] at h; simp at h
      | some p =>
        obtain ⟨t', rest'⟩ := p
        rw [hrec] at h
        simp only [Option.some.injEq, Prod.mk.injEq] at h
        obtain ⟨h1, h2⟩ := h
        subst h1
        obtain ⟨l1, l2, hss, hrest', hready'⟩ := ih hrec
        refine ⟨s :: l1, l2, by simp [hss], ?_, hready'⟩
        rw [← h2, hrest']
        rfl

/-- A ready step has all its dependencies among the emitted names. -/
lemma readyStep_mem {emitted : List String} {t : Step}
    (h : readyStep emitted t = true) : ∀ d ∈ t.dependsOn, d ∈ emitted := by
  intro d hd
  have := List.all_eq_true.mp h d hd
  exact of_decide_eq_true this

/-- Splitting off one step permutes the names into head position. -/
lemma split_names_perm {l1 l2 : List Step} {t : Step} :
    ((l1 ++ t :: l2).map Step.name).Perm
      (t.name :: (l1 ++ l2).map Step.name) := by
  simp only [List.map_append, List.map_cons]
  exact List.perm_middle

/-- Specification of a successful `topoAux` run: the output extends the
emitted prefix by a permutation of the remaining names, and every
dependency of a remaining step lands strictly before that step. -/
lemma topoAux_spec : ∀ (fuel : Nat) (emitted : List String) (remaining : List Step)
    (order : List String),
    topoAux fuel emitted remaining = some order →
    (∀ n ∈ emitted, n ∉ remaining.map Step.name) →
    (remaining.map Step.name).Nodup →
    ∃ suffix, order = emitted ++ suffix ∧
      suffix.Perm (remaining.map Step.name) ∧
      ∀ s ∈ remaining, ∀ d ∈ s.dependsOn,
        order.indexOf d < order.indexOf s.name := by
  intro fuel
  induction fuel with
  | zero =>
    intro emitted remaining order h hdisj hnd
    cases remaining with
    | nil =>
      simp only [topoAux, Option.some.injEq] at h
      exact ⟨[], by simp [h.symm], by exact List.Perm.nil, by simp⟩
    | cons s ss => simp [topoAux] at h
  | succ fuel ih =>
    intro emitted remaining order h hdisj hnd
    cases remaining with
    | nil =>
      simp only [topoAux, Option.some.injEq] at h
      exact ⟨[], by simp [h.symm], by exact List.Perm.nil, by simp⟩
    | cons s ss =>
      unfold topoAux at h
      cases hex : extractReady emitted (s :: ss) with
      | none => rw [hex] at h; simp at h
      | some p =>
        obtain ⟨t, rest⟩ := p
        rw [hex] at h
        obtain ⟨l1, l2, hsplit, hrest, hready⟩ := extractReady_split emitted hex
        have hpermN : ((s :: ss).map Step.name).Perm
            (t.name :: rest.map Step.name) := by
          rw [hsplit, hrest]; exact split_names_perm
        have hndcons : (t.name :: rest.map Step.name).Nodup :=
          (hpermN.nodup_iff).mp hnd
        have htn : t.name ∉ rest.map Step.name := (List.nodup_cons.mp hndcons).1
        have hndrest : (rest.map Step.name).Nodup := (List.nodup_cons.mp hndcons).2
        have hmem_rest : ∀ x ∈ rest.map Step.name, x ∈ (s :: ss).map Step.name := by
          intro x hx
          exact hpermN.mem_iff.mpr (List.mem_cons.mpr (Or.inr hx))
        have htmem : t.name ∈ (s :: ss).map Step.name :=
          hpermN.mem_iff.mpr (List.mem_cons.mpr (Or.inl rfl))
        have hdisj' : ∀ n ∈ emitted ++ [t.name], n ∉ rest.map Step.name := by
          intro n hn
          rcases List.mem_append.mp hn with h' | h'
          · intro hc; exact hdisj n h' (hmem_rest n hc)
          · simp at h'; subst h'; exact htn
        obtain ⟨suffix', horder, hperm', hprec'⟩ :=
          ih (emitted ++ [t.name]) rest order h hdisj' hndrest
        refine ⟨t.name :: suffix', by simp [horder], ?_, ?_⟩
        · exact (hperm'.cons t.name).trans hpermN.symm
        · intro s' hs' d hd
          have hs'cases : s' = t ∨ s' ∈ rest := by
            rw [hsplit] at hs'
            rcases List.mem_append.mp hs' with h' | h'
            · exact Or.inr (by rw [hrest]; exact List.mem_append.mpr (Or.inl h'))
            · rcases List.mem_cons.mp h' with h'' | h''
              · exact Or.inl h''
              · exact Or.inr (by rw [hrest]; exact List.mem_append.mpr (Or.inr h''))
          rcases hs'cases with h' | h'
          · subst h'
            have hdem : d ∈ emitted := readyStep_mem hready d hd
            have htne : s'.name ∉ emitted := fun hc => hdisj s'.name hc htmem
            have h1 : order.indexOf d = emitted.indexOf d := by
              rw [horder, List.append_assoc]
              exact List.indexOf_append_of_mem hdem
            have h2 : order.indexOf s'.name = emitted.length := by
              rw [horder, List.append_assoc, List.indexOf_append_of_not_mem htne]
              simp [List.singleton_append, List.indexOf_cons_self]
            rw [h1, h2]
            exact List.indexOf_lt_length.mpr hdem
          · exact hprec' s' h' d hd

/-- A cycle whose nodes all avoid the emitted prefix makes `topoAux` fail. -/
lemma topoAux_cycle : ∀ (fuel : Nat) (emitted : List String) (remaining : List Step)
    (a : String) (l : List String),
    (remaining.map Step.name).Nodup →
    List.Chain (dependsOnStep remaining) a (l ++ [a]) →
    (∀ x ∈ a :: l, x ∉ emitted) →
    topoAux fuel emitted remaining = none := by
  intro fuel
  induction fuel with
  | zero =>
    intro emitted remaining a l _ hch _
    obtain ⟨y, _, s0, hs0, _, _⟩ := chain_sources l a a hch a (by simp)
    cases remaining with
    | nil => simp at hs0
    | cons r rs => rfl
  | succ fuel ih =>
    intro emitted remaining a l hnd hch hfresh
    obtain ⟨y0, _, s0, hs0, _, _⟩ := chain_sources l a a hch a (by simp)
    cases remaining with
    | nil => simp at hs0
    | cons r rs =>
      unfold topoAux
      cases hex : extractReady emitted (r :: rs) with
      | none => rfl
      | some p =>
        obtain ⟨t, rest⟩ := p
        obtain ⟨l1, l2, hsplit, hrest, hready⟩ := extractReady_split emitted hex
        have hready' : ∀ d ∈ t.dependsOn, d ∈ emitted := readyStep_mem hready
        have hpermN : ((r :: rs).map Step.name).Perm
            (t.name :: rest.map Step.name) := by
          rw [hsplit, hrest]; exact split_names_perm
        have hndcons : (t.name :: rest.map Step.name).Nodup :=
          (hpermN.nodup_iff).mp hnd
        have htn : t.name ∉ rest.map Step.name := (List.nodup_cons.mp hndcons).1
        have hndrest : (rest.map Step.name).Nodup := (List.nodup_cons.mp hndcons).2
        have hmemsplit : ∀ s' : Step, s' ∈ r :: rs → s' = t ∨ s' ∈ rest := by
          intro s' hs'
          rw [hsplit] at hs'
          rcases List.mem_append.mp hs' with h' | h'
          · exact Or.inr (by rw [hrest]; exact List.mem_append.mpr (Or.inl h'))
          · rcases List.mem_cons.mp h' with h'' | h''
            · exact Or.inl h''
            · exact Or.inr (by rw [hrest]; exact List.mem_append.mpr (Or.inr h''))
        have key : ∀ x y, x ∈ a :: l → y ∈ a :: l →
            dependsOnStep (r :: rs) x y → dependsOnStep rest x y := by
          rintro x y hx hy ⟨s', hs', hname, hdep⟩
          have hs'ne : s' ≠ t := by
            intro he; subst he
            exact hfresh y hy (hready' y hdep)
          rcases hmemsplit s' hs' with h' | h'
          · exact absurd h' hs'ne
          · exact ⟨s', h', hname, hdep⟩
        have hsrc : ∀ x ∈ a :: l, x ≠ t.name := by
          intro x hx hxe
          obtain ⟨y, hy, hr⟩ := chain_sources l a a hch x hx
          have hy' : y ∈ a :: l := by
            rcases List.mem_append.mp hy with h' | h'
            · exact List.mem_cons.mpr (Or.inr h')
            · simp at h'; subst h'; exact List.mem_cons.mpr (Or.inl rfl)
          obtain ⟨s', hs'rest, hname, _⟩ := key x y hx hy' hr
          have : s'.name ∈ rest.map Step.name := List.mem_map.mpr ⟨s', hs'rest, rfl⟩
          rw [hname, hxe] at this
          exact htn this
        have hch' : List.Chain (dependsOnStep rest) a (l ++ [a]) := by
          refine chain_mono_mem (l ++ [a]) a hch ?_
          intro x y hx hy hr
          have hx' : x ∈ a :: l := by
            rcases List.mem_cons.mp hx with h' | h'
            · exact List.mem_cons.mpr (Or.inl h')
            · rcases List.mem_append.mp h' with h'' | h''
              · exact List.mem_cons.mpr (Or.inr h'')
              · simp at h''; subst h''; exact List.mem_cons.mpr (Or.inl rfl)
          have hy' : y ∈ a :: l := by
            rcases List.mem_append.mp hy with h' | h'
            · exact List.mem_cons.mpr (Or.inr h')
            · simp at h'; subst h'; exact List.mem_cons.mpr (Or.inl rfl)
          exact key x y hx' hy' hr
        have hfresh' : ∀ x ∈ a :: l, x ∉ emitted ++ [t.name] := by
          intro x hx hc
          rcases List.mem_append.mp hc with h' | h'
          · exact hfresh x hx h'
          · simp at h'; exact hsrc x hx h'
        exact ih (emitted ++ [t.name]) rest a l hndrest hch' hfresh'

/-- A cycle in the dependency relation defeats the topological sort. -/
lemma topologicalOrder_of_cycle {g : Graph} {a : String} {l : List String}
    (hnd : (g.steps.map Step.name).Nodup)
    (hch : List.Chain (dependsOnStep g.steps) a (l ++ [a])) :
    topologicalOrder g = none :=
  topoAux_cycle g.steps.length [] g.steps a l hnd hch (by simp)

/-- Specification of `topologicalOrder` on success: a permutation of the
step names in which every dependency precedes its dependent. -/
lemma topologicalOrder_spec {g : Graph} {order : List String}
    (hnd : (g.steps.map Step.name).Nodup)
    (h : topologicalOrder g = some order) :
    order.Perm (g.steps.map Step.name) ∧
      ∀ s ∈ g.steps, ∀ d ∈ s.dependsOn,
        order.indexOf d < order.indexOf s.name := by
  obtain ⟨suffix, horder, hperm, hprec⟩ :=
    topoAux_spec g.steps.length [] g.steps order h (by simp) hnd
  have hs : order = suffix := by simpa using horder
  subst hs
  exact ⟨hperm, hprec⟩

/-- Appending records cannot resurrect a missing lookup. -/
lemma lookup_append_none : ∀ {st : RunState} {n : String},
    lookupResult st n = none →
    ∀ Δ : RunState, lookupResult (st ++ Δ) n = lookupResult Δ n := by
  intro st
  induction st with
  | nil => intro n _ Δ; rfl
  | cons x st ih =>
    intro n h Δ
    rw [lookup_cons] at h
    rw [List.cons_append, lookup_cons]
    by_cases hx : (x.stepName == n) = true
    · rw [if_pos hx] at h; exact absurd h (by simp)
    · rw [if_neg hx] at h
      rw [if_neg hx]
      exact ih h Δ

/-- `runSteps` only appends to the record state and the invocation log:
results and invocations already recorded are never altered. -/
lemma runSteps_append (client : ResourceClient) (g : Graph) :
    ∀ (ns : List String) (st : RunState) (inv : List Invocation),
      ∃ Δ ι, runSteps client g ns st inv = (st ++ Δ, inv ++ ι) := by
  intro ns
  induction ns with
  | nil => intro st inv; exact ⟨[], [], by simp [runSteps]⟩
  | cons n ns ih =>
    intro st inv
    cases hfind : g.steps.find? (fun s => s.name == n) with
    | none =>
      obtain ⟨Δ, ι, hΔ⟩ := ih st inv
      exact ⟨Δ, ι, by simp only [runSteps, hfind]; exact hΔ⟩
    | some step =>
      obtain ⟨Δ, ι, hΔ⟩ := ih (st ++ [(execStep client st step).1])
        (inv ++ (execStep client st step).2.toList)
      refine ⟨(execStep client st step).1 :: Δ,
        (execStep client st step).2.toList ++ ι, ?_⟩
      simp only [runSteps, hfind]
      rw [hΔ]
      simp [List.append_assoc]

/-- Central characterization of `runSteps` along a well-ordered name list:
the state grows by exactly one result per listed name, and every listed
step's recorded result is its `execStep` against a state that agrees with
the final state on all of that step's dependencies. -/
lemma runSteps_master (client : ResourceClient) (g : Graph)
    (hg : (g.steps.map Step.name).Nodup) :
    ∀ (ns : List String) (st : RunState) (inv : List Invocation),
      ns.Nodup →
      (∀ n ∈ ns, ∀ r ∈ st, r.stepName ≠ n) →
      (∀ n ∈ ns, ∃ s, s ∈ g.steps ∧ s.name = n) →
      (∀ s, s ∈ g.steps → s.name ∈ ns → ∀ d ∈ s.dependsOn,
        (∃ r, r ∈ st ∧ r.stepName = d) ∨
          (d ∈ ns ∧ ns.indexOf d < ns.indexOf s.name)) →
      (∃ Δ, (runSteps client g ns st inv).1 = st ++ Δ ∧
         Δ.map StepResult.stepName = ns) ∧
      (∀ s, s ∈ g.steps → s.name ∈ ns →
        ∃ stPre r, lookupResult (runSteps client g ns st inv).1 s.name = some r ∧
          r = (execStep client stPre s).1 ∧
          ∀ d ∈ s.dependsOn,
            lookupResult stPre d = lookupResult (runSteps client g ns st inv).1 d) := by
  intro ns
  induction ns with
  | nil =>
    intro st inv _ _ _ _
    refine ⟨⟨[], by simp [runSteps], rfl⟩, ?_⟩
    intro s _ hmem
    simp at hmem
  | cons n ns ih =>
    intro st inv hnd hfresh hfound hdeps
    have hn_nin : n ∉ ns := (List.nodup_cons.mp hnd).1
    have hnd' : ns.Nodup := (List.nodup_cons.mp hnd).2
    obtain ⟨s₀, hs₀g, hs₀n⟩ := hfound n (List.mem_cons.mpr (Or.inl rfl))
    have hfindsome : (g.steps.find? (fun s => s.name == n)).isSome = true := by
      rw [List.find?_isSome]
      exact ⟨s₀, hs₀g, by simp [hs₀n]⟩
    obtain ⟨t₀, hfind⟩ := Option.isSome_iff_exists.mp hfindsome
    have ht₀g : t₀ ∈ g.steps := List.mem_of_find?_eq_some hfind
    have ht₀n : t₀.name = n := by simpa using List.find?_some hfind
    have hr₀name : (execStep client st t₀).1.stepName = n := by
      rw [execStep_stepName]; exact ht₀n
    have hstep : runSteps client g (n :: ns) st inv =
        runSteps client g ns (st ++ [(execStep client st t₀).1])
          (inv ++ (execStep client st t₀).2.toList) := by
      simp only [runSteps, hfind]
    have hfresh' : ∀ m ∈ ns, ∀ r ∈ st ++ [(execStep client st t₀).1],
        r.stepName ≠ m := by
      intro m hm r hr
      rcases List.mem_append.mp hr with h' | h'
      · exact hfresh m (List.mem_cons.mpr (Or.inr hm)) r h'
      · simp at h'
        subst h'
        rw [hr₀name]
        intro he
        exact hn_nin (he ▸ hm)
    have hfound' : ∀ m ∈ ns, ∃ s, s ∈ g.steps ∧ s.name = m :=
      fun m hm => hfound m (List.mem_cons.mpr (Or.inr hm))
    have hdeps' : ∀ s, s ∈ g.steps → s.name ∈ ns → ∀ d ∈ s.dependsOn,
        (∃ r, r ∈ st ++ [(execStep client st t₀).1] ∧ r.stepName = d) ∨
          (d ∈ ns ∧ ns.indexOf d < ns.indexOf s.name) := by
      intro s hs hsns d hd
      have hsne : n ≠ s.name := by
        intro he
        exact hn_nin (he ▸ hsns)
      rcases hdeps s hs (List.mem_cons.mpr (Or.inr hsns)) d hd with h' | ⟨hdm, hlt⟩
      · obtain ⟨r, hrst, hrn⟩ := h'
        exact Or.inl ⟨r, List.mem_append.mpr (Or.inl hrst), hrn⟩
      · rcases List.mem_cons.mp hdm with h'' | h''
        · subst h''
          exact Or.inl ⟨(execStep client st t₀).1,
            List.mem_append.mpr (Or.inr (by simp)), hr₀name⟩
        · have hdn : n ≠ d := by
            intro he
            exact hn_nin (he ▸ h'')
          rw [List.indexOf_cons_ne ns hdn, List.indexOf_cons_ne ns hsne] at hlt
          exact Or.inr ⟨h'', Nat.succ_lt_succ_iff.mp hlt⟩
    obtain ⟨⟨Δ', hΔ', hmapΔ'⟩, hchar'⟩ :=
      ih (st ++ [(execStep client st t₀).1])
        (inv ++ (execStep client st t₀).2.toList) hnd' hfresh' hfound' hdeps'
    rw [hstep]
    constructor
    · refine ⟨(execStep client st t₀).1 :: Δ', ?_, ?_⟩
      · rw [hΔ']
        simp [List.append_assoc]
      · simp [hmapΔ', hr₀name]
    · intro s hs hsmem
      rcases List.mem_cons.mp hsmem with hsn | hsn
      · have hst : s = t₀ :=
          List.inj_on_of_nodup_map hg hs ht₀g (by rw [hsn, ht₀n])
        subst hst
        refine ⟨st, (execStep client st s).1, ?_, rfl, ?_⟩
        · rw [hΔ']
          have hnone : lookupResult st s.name = none := by
            apply lookup_eq_none
            intro r hr
            exact hfresh s.name (List.mem_cons.mpr (Or.inl hsn)) r hr
          rw [List.append_assoc, lookup_append_none hnone]
          rw [List.singleton_append, lookup_cons]
          rw [if_pos (by simp [execStep_stepName])]
        · intro d hd
          rcases hdeps s hs hsmem d hd with h' | ⟨_, hlt⟩
          · obtain ⟨r, hrst, hrn⟩ := h'
            obtain ⟨rd, hrd⟩ := lookup_exists_of_mem hrst hrn
            rw [hrd, hΔ', List.append_assoc, lookup_append_some hrd]
          · rw [hsn, List.indexOf_cons_self] at hlt
            exact absurd hlt (Nat.not_lt_zero _)
      · exact hchar' s hs hsn

/-- Unpack a successful `run` into its validation facts and raw traversal. -/
lemma run_ok_elim {client : ResourceClient} {g : Graph} {o : RunOutcome}
    (h : run client g = .ok o) :
    ∃ order, topologicalOrder g = some order ∧ hasDanglingRef g = false ∧
      o.results = (runSteps client g order [] []).1 ∧
      o.invocations = (runSteps client g order [] []).2 := by
  unfold run at h
  cases htopo : topologicalOrder g with
  | none => simp only [htopo] at h; exact absurd h (by simp)
  | some order =>
    simp only [htopo] at h
    by_cases hd : hasDanglingRef g = true
    · rw [if_pos hd] at h; simp at h
    · rw [Bool.not_eq_true] at hd
      rw [if_neg (by simp [hd])] at h
      simp only [Except.ok.injEq] at h
      exact ⟨order, rfl, hd, by rw [← h], by rw [← h]⟩

/-- `validate` succeeding is exactly what `run` needs to return a report. -/
lemma run_ok_of_validate (client : ResourceClient) {g : Graph}
    (h : validate g = .ok ()) :
    run client g =
      .ok ⟨(runSteps client g (topologicalOrder g).iget [] []).1,
           (runSteps client g (topologicalOrder g).iget [] []).2⟩ := by
  unfold validate at h
  cases htopo : topologicalOrder g with
  | none => simp only [htopo] at h; exact absurd h (by simp)
  | some order =>
    simp only [htopo] at h
    by_cases hd : hasDanglingRef g = true
    · rw [if_pos hd] at h; simp at h
    · rw [Bool.not_eq_true] at hd
      unfold run
      simp only [htopo]
      rw [if_neg (by simp [hd])]

/-- Characterization of a successful Executor run over a graph with unique
step names: the recorded results follow the topological order exactly, and
each step's result is its `execStep` against a state agreeing with the
final state on that step's dependencies. -/
lemma run_char {client : ResourceClient} {g : Graph} {o : RunOutcome}
    (hnd : (g.steps.map Step.name).Nodup) (h : run client g = .ok o) :
    ∃ order, topologicalOrder g = some order ∧
      order.Perm (g.steps.map Step.name) ∧
      (∀ s ∈ g.steps, ∀ d ∈ s.dependsOn,
        order.indexOf d < order.indexOf s.name ∧ d ∈ order) ∧
      o.results.map StepResult.stepName = order ∧
      (∀ s ∈ g.steps,
        ∃ stPre r, lookupResult o.results s.name = some r ∧
          r = (execStep client stPre s).1 ∧
          ∀ d ∈ s.dependsOn, lookupResult stPre d = lookupResult o.results d) := by
  obtain ⟨order, htopo, hdang, hres, hinv⟩ := run_ok_elim h
  obtain ⟨hperm, hprec⟩ := topologicalOrder_spec hnd htopo
  have hordnd : order.Nodup := (hperm.nodup_iff).mpr hnd
  have hmemname : ∀ s ∈ g.steps, s.name ∈ order := by
    intro s hs
    exact hperm.mem_iff.mpr (List.mem_map.mpr ⟨s, hs, rfl⟩)
  have hprec' : ∀ s ∈ g.steps, ∀ d ∈ s.dependsOn,
      order.indexOf d < order.indexOf s.name ∧ d ∈ order := by
    intro s hs d hd
    refine ⟨hprec s hs d hd, ?_⟩
    have h1 : order.indexOf s.name < order.length :=
      List.indexOf_lt_length.mpr (hmemname s hs)
    exact List.indexOf_lt_length.mp (Nat.lt_trans (hprec s hs d hd) h1)
  have hfound : ∀ n ∈ order, ∃ s, s ∈ g.steps ∧ s.name = n := by
    intro n hn
    have h' : n ∈ g.steps.map Step.name := hperm.mem_iff.mp hn
    obtain ⟨s, hs, hsn⟩ := List.mem_map.mp h'
    exact ⟨s, hs, hsn⟩
  have hdeps : ∀ s, s ∈ g.steps → s.name ∈ order → ∀ d ∈ s.dependsOn,
      (∃ r, r ∈ ([] : RunState) ∧ r.stepName = d) ∨
        (d ∈ order ∧ order.indexOf d < order.indexOf s.name) := by
    intro s hs _ d hd
    exact Or.inr ⟨(hprec' s hs d hd).2, (hprec' s hs d hd).1⟩
  obtain ⟨⟨Δ, hΔ, hmap⟩, hchar⟩ :=
    runSteps_master client g hnd order [] [] hordnd (by simp) hfound hdeps
  refine ⟨order, htopo, hperm, hprec', ?_, ?_⟩
  · rw [hres, hΔ]
    simpa using hmap
  · intro s hs
    obtain ⟨stPre, r, h1, h2, h3⟩ := hchar s hs (hmemname s hs)
    rw [hres]
    exact ⟨stPre, r, h1, h2, h3⟩

/-- Failure propagation: in any successful run, a step that transitively
depends on a recorded failed step is itself recorded skipped. -/
lemma skip_propagates {client : ResourceClient} {g : Graph} {o : RunOutcome}
    (hnd : (g.steps.map Step.name).Nodup) (h : run client g = .ok o)
    {b a : String} (htd : TransDep g b a) {ra : StepResult}
    (hla : lookupResult o.results a = some ra) (hfa : ra.status = .failed) :
    ∃ rb, lookupResult o.results b = some rb ∧ rb.status = .skipped := by
  obtain ⟨order, htopo, hperm, hprec, hmap, hchar⟩ := run_char hnd h
  revert ra
  induction htd with
  | @direct b' a' hedge =>
    intro ra hla hfa
    obtain ⟨s, hs, hname, hdep⟩ := hedge
    obtain ⟨stPre, r, h1, h2, h3⟩ := hchar s hs
    refine ⟨r, by rw [← hname]; exact h1, ?_⟩
    have hlook : lookupResult stPre a' = some ra := by rw [h3 a' hdep, hla]
    have hbl := execStep_of_blocked client hdep hlook (by rw [hfa]; rfl)
    rw [h2, hbl]
  | @step b' c' a' hedge htd' IH =>
    intro ra hla hfa
    obtain ⟨rc, hlc, hsc⟩ := IH hla hfa
    obtain ⟨s, hs, hname, hdep⟩ := hedge
    obtain ⟨stPre, r, h1, h2, h3⟩ := hchar s hs
    refine ⟨r, by rw [← hname]; exact h1, ?_⟩
    have hlook : lookupResult stPre c' = some rc := by rw [h3 c' hdep]; exact hlc
    have hbl := execStep_of_blocked client hdep hlook (by rw [hsc]; rfl)
    rw [h2, hbl]

/-- Converse bookkeeping: in any successful run, a recorded skipped step
has a recorded failed step among its transitive dependencies. -/
lemma skipped_has_failed_ancestor {client : ResourceClient} {g : Graph}
    {o : RunOutcome}
    (hnd : (g.steps.map Step.name).Nodup) (h : run client g = .ok o) :
    ∀ (b : String) (rb : StepResult), lookupResult o.results b = some rb →
      rb.status = .skipped →
      ∃ a ra, TransDep g b a ∧ lookupResult o.results a = some ra ∧
        ra.status = .failed := by
  obtain ⟨order, htopo, hperm, hprec, hmap, hchar⟩ := run_char hnd h
  suffices H : ∀ (k : Nat) (b : String) (rb : StepResult), order.indexOf b = k →
      lookupResult o.results b = some rb → rb.status = .skipped →
      ∃ a ra, TransDep g b a ∧ lookupResult o.results a = some ra ∧
        ra.status = .failed by
    intro b rb h1 h2
    exact H (order.indexOf b) b rb rfl h1 h2
  intro k
  induction k using Nat.strong_induction_on with
  | _ k IH =>
    intro b rb hk hlb hsb
    have hbmem : b ∈ order := by
      rw [← hmap]
      exact List.mem_map.mpr ⟨rb, (lookup_mem hlb).1, (lookup_mem hlb).2⟩
    have hbname : ∃ s, s ∈ g.steps ∧ s.name = b := by
      have h' : b ∈ g.steps.map Step.name := hperm.mem_iff.mp hbmem
      obtain ⟨s, hs, hsn⟩ := List.mem_map.mp h'
      exact ⟨s, hs, hsn⟩
    obtain ⟨s, hs, hsn⟩ := hbname
    obtain ⟨stPre, r, h1, h2, h3⟩ := hchar s hs
    have hrrb : r = rb := by
      rw [hsn] at h1
      rw [h1] at hlb
      exact Option.some.inj hlb
    have hsk : (execStep client stPre s).1.status = .skipped := by
      rw [← h2, hrrb]
      exact hsb
    have hblocked := execStep_skipped_blocked hsk
    obtain ⟨d, hd, rd, hrdl, hrdb⟩ := (depBlocked_iff stPre s).mp hblocked
    have hld : lookupResult o.results d = some rd := by
      rw [← h3 d hd]
      exact hrdl
    have hedge : dependsOnStep g.steps b d := ⟨s, hs, hsn, hd⟩
    rcases (blockedStatus_iff rd.status).mp hrdb with hfd | hsd
    · exact ⟨d, rd, TransDep.direct hedge, hld, hfd⟩
    · have hm : order.indexOf d < k := by
        rw [← hk, ← hsn]
        exact (hprec s hs d hd).1
      obtain ⟨a, ra, htd, hla, hfa⟩ := IH (order.indexOf d) hm d rd rfl hld hsd
      exact ⟨a, ra, TransDep.step hedge htd, hla, hfa⟩

/-- `allSucceeded` is exactly the absence of a failed result. -/
lemma allSucceeded_iff (st : RunState) :
    allSucceeded st = true ↔ ∀ r ∈ st, r.status ≠ Status.failed := by
  unfold allSucceeded
  rw [List.all_eq_true]
  simp

/-- `UnresolvedReferenceError` arises exactly on a missing source record. -/
lemma resolveParam_unresolved_iff (st : RunState) (src path : String) :
    resolveParam st (.ref src path) = .error (.unresolvedReference src) ↔
      lookupResult st src = none := by
  unfold resolveParam
  cases h : lookupResult st src with
  | none => simp [h]
  | some r =>
    cases hst : r.status with
    | succeeded =>
      cases hf : r.output.find? (fun p => p.1 == path) with
      | none => simp [h, hst, hf]
      | some p => simp [h, hst, hf]
    | failed => simp [h, hst]
    | skipped => simp [h, hst]

/-- `UpstreamFailedError` arises exactly on a recorded non-succeeded source. -/
lemma resolveParam_upstream_iff (st : RunState) (src path : String) :
    resolveParam st (.ref src path) = .error (.upstreamFailed src) ↔
      ∃ r, lookupResult st src = some r ∧ r.status ≠ Status.succeeded := by
  unfold resolveParam
  cases h : lookupResult st src with
  | none => simp [h]
  | some r =>
    cases hst : r.status with
    | succeeded =>
      cases hf : r.output.find? (fun p => p.1 == path) with
      | none => simp [h, hst, hf]
      | some p => simp [h, hst, hf]
    | failed => simp [h, hst]
    | skipped => simp [h, hst]

/-- `MissingFieldError` arises exactly when the field is absent from the
succeeded source's output. -/
lemma resolveParam_missing_iff (st : RunState) (src path : String) :
    resolveParam st (.ref src path) = .error (.missingField src path) ↔
      ∃ r, lookupResult st src = some r ∧ r.status = Status.succeeded ∧
        r.output.find? (fun p => p.1 == path) = none := by
  unfold resolveParam
  cases h : lookupResult st src with
  | none => simp [h]
  | some r =>
    cases hst : r.status with
    | succeeded =>
      cases hf : r.output.find? (fun p => p.1 == path) with
      | none =>
        simp [h, hst, hf]
        intro a b hab
        have h2 := List.find?_eq_none.mp hf (a, b) hab
        simp at h2
        exact h2
      | some p =>
        simp [h, hst, hf]
        have hmem := List.mem_of_find?_eq_some hf
        have hp1 : p.1 = path := by simpa using List.find?_some hf
        exact ⟨p.2, by rw [← hp1]; exact hmem⟩
    | failed => simp [h, hst]
    | skipped => simp [h, hst]

/-- Single-parameter resolution reads the RunState only through lookups. -/
lemma resolveParam_ext {st1 st2 : RunState}
    (h : ∀ n, lookupResult st1 n = lookupResult st2 n) (p : Param) :
    resolveParam st1 p = resolveParam st2 p := by
  cases p with
  | lit v => rfl
  | ref src path =>
    simp only [resolveParam]
    rw [h src]

/-- Whole-mapping resolution reads the RunState only through lookups, so
two states presenting the same mapping resolve identically. -/
lemma resolveParams_ext {st1 st2 : RunState}
    (h : ∀ n, lookupResult st1 n = lookupResult st2 n) :
    ∀ ps, resolveParams st1 ps = resolveParams st2 ps := by
  intro ps
  induction ps with
  | nil => rfl
  | cons kp rest ih =>
    obtain ⟨k, p⟩ := kp
    unfold resolveParams
    rw [resolveParam_ext h p, ih]

/-
Embedding of the module-level bindings of `example_dlp.py`.

The third DAG block mutates the module-level dict `JOB_TRIGGER` between
the construction of `create_trigger` and `update_trigger`; both operators
hold a reference to the same dict.  The heap below has one cell per
module-level dict that is aliased by operators (only `JOB_TRIGGER`).
-/

/-- The `{"seconds": ...}` payload of a duration dict in the module. -/
structure DurationDict where
  seconds : Nat
deriving DecidableEq, Repr

/-- The `{"recurrence_period_duration": ...}` schedule dict. -/
structure ScheduleDict where
  recurrence_period_duration : DurationDict
deriving DecidableEq, Repr

/-- One `{"schedule": ...}` entry of the `triggers` list. -/
structure TriggerEntryDict where
  schedule : ScheduleDict
deriving DecidableEq, Repr

/-- An `{"name": ...}` info-type dict of `INSPECT_CONFIG`. -/
structure InfoTypeDict where
  name : String
deriving DecidableEq, Repr

/-- The `InspectConfig(info_types=[...])` value of the module. -/
structure InspectConfigDict where
  info_types : List InfoTypeDict
deriving DecidableEq, Repr

/-- The `JOB = {"inspect_config": INSPECT_CONFIG}` dict. -/
structure InspectJobDict where
  inspect_config : InspectConfigDict
deriving DecidableEq, Repr

/-- The `JOB_TRIGGER` dict: inspect job, triggers list, and status. -/
structure JobTriggerDict where
  inspect_job : InspectJobDict
  triggers : List TriggerEntryDict
  status : String
deriving DecidableEq, Repr

/-- `INSPECT_CONFIG` from the module source. -/
def INSPECT_CONFIG : InspectConfigDict :=
  ⟨[⟨"PHONE_NUMBER"⟩, ⟨"US_TOLLFREE_PHONE_NUMBER"⟩]⟩

/-- `SCHEDULE = {"recurrence_period_duration": {"seconds": 60 * 60 * 24}}`. -/
def SCHEDULE : ScheduleDict := ⟨⟨60 * 60 * 24⟩⟩

/-- `JOB = {"inspect_config": INSPECT_CONFIG}`. -/
def JOB : InspectJobDict := ⟨INSPECT_CONFIG⟩

/-- The dict initially bound to `JOB_TRIGGER` at module level. -/
def jobTriggerInit : JobTriggerDict := ⟨JOB, [⟨SCHEDULE⟩], "HEALTHY"⟩

/-- The mutable heap of aliased module dicts, by address. -/
abbrev Heap := List JobTriggerDict

/-- The heap address of the dict bound to `JOB_TRIGGER`. -/
def JOB_TRIGGER_addr : Nat := 0

/-- Heap state right after `JOB_TRIGGER = {...}` executes. -/
def heapAfterInit : Heap := [jobTriggerInit]

/-- An operator of the third DAG that holds a `job_trigger` argument:
the Python constructor stores the dict reference, not a copy. -/
structure TriggerOperator where
  task_id : String
  job_trigger_ref : Nat
deriving DecidableEq, Repr

/-- `create_trigger = CloudDLPCreateJobTriggerOperator(..., job_trigger=JOB_TRIGGER,
task_id="create_trigger")`: constructed before the mutation, holding the
reference to the `JOB_TRIGGER` dict. -/
def create_trigger : TriggerOperator := ⟨"create_trigger", JOB_TRIGGER_addr⟩

/-- `UPDATED_SCHEDULE = {"recurrence_period_duration": {"seconds": 2 * 60 * 60 * 24}}`. -/
def UPDATED_SCHEDULE : ScheduleDict := ⟨⟨2 * 60 * 60 * 24⟩⟩

/-- In-place update of the `triggers` entry of the dict at address `a`,
modelling `JOB_TRIGGER["triggers"] = [{"schedule": UPDATED_SCHEDULE}]`. -/
def setTriggers (h : Heap) (a : Nat) (ts : List TriggerEntryDict) : Heap :=
  match h.get? a with
  | some jt => h.set a { jt with triggers := ts }
  | none => h

/-- Heap state after the `JOB_TRIGGER["triggers"]` reassignment. -/
def moduleFinalHeap : Heap :=
  setTriggers heapAfterInit JOB_TRIGGER_addr [⟨UPDATED_SCHEDULE⟩]

/-- `update_trigger = CloudDLPUpdateJobTriggerOperator(..., job_trigger=JOB_TRIGGER,
task_id="update_info_type")`: constructed after the mutation, holding the
same reference. -/
def update_trigger : TriggerOperator := ⟨"update_info_type", JOB_TRIGGER_addr⟩

/-- The dict an operator's `job_trigger` argument denotes in a heap. -/
def heldJobTrigger (h : Heap) (op : TriggerOperator) : Option JobTriggerDict :=
  h.get? op.job_trigger_ref

/-- The list of schedule seconds carried by an operator's job trigger. -/
def heldScheduleSeconds (h : Heap) (op : TriggerOperator) : Option (List Nat) :=
  (heldJobTrigger h op).map
    (fun j => j.triggers.map (fun t => t.schedule.recurrence_period_duration.seconds))

/-
Embedding of the task lists of the three DAGs, exactly as declared by the
module: each task's `task_id` string and its upstream task ids from the
`>>` chains.  Note the source's `task_id="inpsect_content"` typo and the
reused `task_id`s in the third DAG.
-/

/-- A task of a DAG: its `task_id` and its upstream task ids. -/
structure DagTask where
  task_id : String
  upstream : List String
deriving DecidableEq, Repr

/-- Tasks of the `example_gcp_dlp` DAG. -/
def example_gcp_dlp_tasks : List DagTask :=
  [⟨"create_template", []⟩,
   ⟨"inpsect_content", ["create_template"]⟩,
   ⟨"delete_template", ["inpsect_content"]⟩]

/-- Tasks of the `example_gcp_dlp_info_types` DAG. -/
def example_gcp_dlp_info_types_tasks : List DagTask :=
  [⟨"create_info_type", []⟩,
   ⟨"update_info_type", ["create_info_type"]⟩,
   ⟨"delete_info_type", ["update_info_type"]⟩]

/-- Tasks of the `example_gcp_dlp_job` DAG: the trigger update and trigger
delete operators are declared with `task_id="update_info_type"` and
`task_id="delete_info_type"`. -/
def example_gcp_dlp_job_tasks : List DagTask :=
  [⟨"create_trigger", []⟩,
   ⟨"update_info_type", ["create_trigger"]⟩,
   ⟨"delete_info_type", ["update_info_type"]⟩]

/-- A client that performs every operation successfully with empty output. -/
def noopClient : ResourceClient := fun _ _ _ => .ok []

/-- The template-lifecycle scenario graph: create a template, inspect
content with the created template's runtime name, delete the template. -/
def tplGraph : Graph := ⟨[
  ⟨"create_template", .create, "inspect_template",
    [("templateId", .lit (.str "dlp-inspect-838746"))], []⟩,
  ⟨"inspect_content", .read, "content",
    [("templateName", .ref "create_template" "name")], ["create_template"]⟩,
  ⟨"delete_template", .delete, "inspect_template",
    [("templateId", .lit (.str "dlp-inspect-838746"))], ["inspect_content"]⟩]⟩

/-- A client whose template creation succeeds with output `{name: "tpl-123"}`. -/
def tplClientOk : ResourceClient := fun op kind _ =>
  match op, kind with
  | .create, "inspect_template" => .ok [("name", .str "tpl-123")]
  | _, _ => .ok []

/-- A client whose template creation fails. -/
def tplClientFail : ResourceClient := fun op kind _ =>
  match op, kind with
  | .create, "inspect_template" => .error "create_template failed"
  | _, _ => .ok []

/-- The two independent lifecycle chains of the info-type and job-trigger
scenario: no dependency edge joins the two chains. -/
def dlpChainsGraph : Graph := ⟨[
  ⟨"create_info_type", .create, "stored_info_type", [], []⟩,
  ⟨"update_info_type", .update, "stored_info_type", [], ["create_info_type"]⟩,
  ⟨"delete_info_type", .delete, "stored_info_type", [], ["update_info_type"]⟩,
  ⟨"create_trigger", .create, "job_trigger", [], []⟩,
  ⟨"update_trigger", .update, "job_trigger", [], ["create_trigger"]⟩,
  ⟨"delete_trigger", .delete, "job_trigger", [], ["update_trigger"]⟩]⟩

/-- A client that fails exactly the info-type step with the given
operation and succeeds everywhere else. -/
def failInfoAt (failOp : Operation) : ResourceClient := fun op kind _ =>
  if op = failOp ∧ kind = "stored_info_type" then .error "info-type step failed"
  else .ok []

/-- A two-step cyclic graph: each step depends on the other. -/
def cycGraph : Graph := ⟨[
  ⟨"cyc_x", .create, "k", [], ["cyc_y"]⟩,
  ⟨"cyc_y", .create, "k", [], ["cyc_x"]⟩]⟩

/-- The dependency cycle of `cycGraph` as a closed chain. -/
lemma cycGraph_chain :
    List.Chain (dependsOnStep cycGraph.steps) "cyc_x" (["cyc_y"] ++ ["cyc_x"]) := by
  refine List.Chain.cons ?_ (List.Chain.cons ?_ List.Chain.nil)
  · exact ⟨⟨"cyc_x", .create, "k", [], ["cyc_y"]⟩, by simp [cycGraph], rfl, by simp⟩
  · exact ⟨⟨"cyc_y", .create, "k", [], ["cyc_x"]⟩, by simp [cycGraph], rfl, by simp⟩

/-- Two independent steps inserted in the order zeta, alpha. -/
def tieGraph : Graph := ⟨[
  ⟨"zeta", .create, "k", [], []⟩,
  ⟨"alpha", .create, "k", [], []⟩]⟩

/-- A minimal two-step dependent graph for instantiations. -/
def wGraph : Graph := ⟨[
  ⟨"w_a", .create, "k", [], []⟩,
  ⟨"w_b", .read, "k", [], ["w_a"]⟩]⟩

/-- A client failing every create operation. -/
def wFailClient : ResourceClient := fun op _ _ =>
  match op with
  | .create => .error "boom"
  | _ => .ok []

/-- The outcome of running `wFailClient` over `wGraph`. -/
def wOutcome : RunOutcome :=
  ⟨[⟨"w_a", .failed, [], some "boom"⟩,
    ⟨"w_b", .skipped, [], some skippedMessage⟩],
   [⟨"w_a", .create, "k", []⟩]⟩

/-- The counterexample graph: `stepB` depends only on `stepC`; `stepA` and
`stepC` are independent roots. -/
def cxGraph : Graph := ⟨[
  ⟨"stepA", .create, "res_a", [], []⟩,
  ⟨"stepC", .create, "res_c", [], []⟩,
  ⟨"stepB", .read, "res_b", [], ["stepC"]⟩]⟩

/-- A client failing both root steps of `cxGraph`. -/
def cxClient : ResourceClient := fun _ kind _ =>
  match kind with
  | "res_a" => .error "A failed"
  | "res_c" => .error "C failed"
  | _ => .ok []

/-- Every direct dependency edge of `cxGraph` goes from stepB to stepC. -/
lemma cxGraph_edges {x y : String} (h : dependsOnStep cxGraph.steps x y) :
    x = "stepB" ∧ y = "stepC" := by
  obtain ⟨s, hs, hname, hdep⟩ := h
  simp only [cxGraph, List.mem_cons, List.not_mem_nil, or_false] at hs
  rcases hs with h1 | h1 | h1 <;> subst h1
  · simp at hdep
  · simp at hdep
  · simp at hdep
    exact ⟨hname.symm, hdep⟩

/-- Every transitive dependency of `cxGraph` bottoms out at stepC. -/
lemma cxGraph_transdep {x y : String} (h : TransDep cxGraph x y) :
    y = "stepC" := by
  induction h with
  | direct hedge => exact (cxGraph_edges hedge).2
  | step hedge htd IH => exact IH

/-- A step with a ValueRef to a step that never ran, used to exercise the
resolution-error path. -/
def w5step : Step := ⟨"w5", .read, "kind5", [("x", .ref "missing_src" "f")], []⟩

/-- A RunState with one record for the name w8. -/
def w8stateShort : RunState := [⟨"w8", .succeeded, [("f", .int 1)], none⟩]

/-- A RunState presenting the same mapping as `w8stateShort` but holding a
shadowed second record under the same name. -/
def w8stateLong : RunState :=
  [⟨"w8", .succeeded, [("f", .int 1)], none⟩, ⟨"w8", .failed, [], none⟩]

/-- The two w8 states agree on every lookup. -/
lemma w8state_ext : ∀ n, lookupResult w8stateShort n = lookupResult w8stateLong n := by
  intro n
  by_cases h : ("w8" : String) = n
  · subst h; rfl
  · have hb : (("w8" : String) == n) = false := by simpa using h
    simp [w8stateShort, w8stateLong, lookupResult, List.find?, hb]

/-- C1: In the three-step chain [create_template → inspect_content
(templateName = ValueRef(create_template, "name")) → delete_template],
when create_template succeeds with output `{name: "tpl-123"}` the
inspect_content step is invoked with resolved parameter
`templateName = "tpl-123"`; when create_template instead fails, both
inspect_content and delete_template are recorded skipped. -/
theorem C1_template_chain_scenario :
    invocationParams tplClientOk tplGraph "inspect_content" =
      some [("templateName", .str "tpl-123")] ∧
    statusOf tplClientFail tplGraph "inspect_content" = some .skipped ∧
    statusOf tplClientFail tplGraph "delete_template" = some .skipped :=
  ⟨rfl, rfl, rfl⟩

/-- C2 counterexample: in a run where both independent roots stepA and
stepC fail, stepB has no dependency path to stepA and nevertheless is
recorded skipped (its own dependency stepC failed), so a step independent
of the failed step A is not always executed to succeeded or failed. -/
theorem C2_independent_step_counterexample :
    statusOf cxClient cxGraph "stepA" = some .failed ∧
    (¬ TransDep cxGraph "stepB" "stepA") ∧
    statusOf cxClient cxGraph "stepB" = some .skipped := by
  refine ⟨rfl, ?_, rfl⟩
  intro h
  have h2 := cxGraph_transdep h
  simp at h2

/-- C2 (amended): if a Step A's result is failed then every Step that
depends on A directly or transitively is recorded skipped; every Step with
no dependency path to ANY recorded failed step reaches succeeded or failed
based solely on its own invocation; and in the two-chain graph a failure
at any position of the info-type chain skips no step of the trigger chain. -/
theorem C2_failure_propagation_amended :
    (∀ (client : ResourceClient) (g : Graph) (o : RunOutcome) (a b : String)
        (ra : StepResult),
      (g.steps.map Step.name).Nodup → run client g = .ok o →
      TransDep g b a → lookupResult o.results a = some ra →
      ra.status = .failed →
      ∃ rb, lookupResult o.results b = some rb ∧ rb.status = .skipped) ∧
    (∀ (client : ResourceClient) (g : Graph) (o : RunOutcome) (b : String),
      (g.steps.map Step.name).Nodup → run client g = .ok o →
      (∀ a ra, lookupResult o.results a = some ra → ra.status = .failed →
        ¬ TransDep g b a) →
      ∀ rb, lookupResult o.results b = some rb →
        rb.status = .succeeded ∨ rb.status = .failed) ∧
    (statusOf (failInfoAt .create) dlpChainsGraph "create_trigger" = some .succeeded ∧
     statusOf (failInfoAt .create) dlpChainsGraph "update_trigger" = some .succeeded ∧
     statusOf (failInfoAt .create) dlpChainsGraph "delete_trigger" = some .succeeded) ∧
    (statusOf (failInfoAt .update) dlpChainsGraph "create_trigger" = some .succeeded ∧
     statusOf (failInfoAt .update) dlpChainsGraph "update_trigger" = some .succeeded ∧
     statusOf (failInfoAt .update) dlpChainsGraph "delete_trigger" = some .succeeded) ∧
    (statusOf (failInfoAt .delete) dlpChainsGraph "create_trigger" = some .succeeded ∧
     statusOf (failInfoAt .delete) dlpChainsGraph "update_trigger" = some .succeeded ∧
     statusOf (failInfoAt .delete) dlpChainsGraph "delete_trigger" = some .succeeded) := by
  refine ⟨?_, ?_, ⟨rfl, rfl, rfl⟩, ⟨rfl, rfl, rfl⟩, ⟨rfl, rfl, rfl⟩⟩
  · intro client g o a b ra hnd hrun htd hla hfa
    exact skip_propagates hnd hrun htd hla hfa
  · intro client g o b hnd hrun hnof rb hlb
    cases hstatus : rb.status with
    | succeeded => exact Or.inl rfl
    | failed => exact Or.inr rfl
    | skipped =>
      obtain ⟨a, ra, htd, hla, hfa⟩ :=
        skipped_has_failed_ancestor hnd hrun b rb hlb hstatus
      exact absurd htd (hnof a ra hla hfa)

/-- C2 witness: the amended propagation law instantiated on the concrete
two-step graph whose root step fails. -/
theorem C2_failure_propagation_amended_witness :
    ∃ rb, lookupResult wOutcome.results "w_b" = some rb ∧
      rb.status = .skipped :=
  C2_failure_propagation_amended.1 wFailClient wGraph wOutcome "w_a" "w_b"
    ⟨"w_a", .failed, [], some "boom"⟩ (by decide) rfl
    (TransDep.direct ⟨⟨"w_b", .read, "k", [], ["w_a"]⟩, by decide, rfl, by decide⟩)
    rfl rfl

/-- C3: for every graph with unique step names whose dependency relation
contains a cycle, `validate` fails with CyclicDependencyError and `run`
aborts with the same error before recording any StepResult or invoking
any Step. -/
theorem C3_cycle_validation :
    ∀ (g : Graph) (a : String) (l : List String),
      (g.steps.map Step.name).Nodup →
      List.Chain (dependsOnStep g.steps) a (l ++ [a]) →
      validate g = .error .cyclicDependency ∧
        ∀ client : ResourceClient, run client g = .error .cyclicDependency := by
  intro g a l hnd hch
  have htopo := topologicalOrder_of_cycle hnd hch
  constructor
  · unfold validate
    simp only [htopo]
  · intro client
    unfold run
    simp only [htopo]

/-- C3 witness: the two-step cyclic graph is rejected by both `validate`
and `run`. -/
theorem C3_cycle_validation_witness :
    validate cycGraph = .error .cyclicDependency ∧
      run noopClient cycGraph = .error .cyclicDependency :=
  ⟨(C3_cycle_validation cycGraph "cyc_x" ["cyc_y"] (by decide) cycGraph_chain).1,
   (C3_cycle_validation cycGraph "cyc_x" ["cyc_y"] (by decide) cycGraph_chain).2
     noopClient⟩

/-- C4: `topologicalOrder` returns a permutation of the step names in
which every dependency precedes its dependents; ties between independent
steps are broken by insertion order (zeta before alpha); and `run` visits
steps exactly in that order, so each step's dependencies all have a
recorded result strictly earlier. -/
theorem C4_topological_order :
    (∀ (g : Graph) (order : List String),
      (g.steps.map Step.name).Nodup → topologicalOrder g = some order →
      order.Perm (g.steps.map Step.name) ∧
      ∀ s ∈ g.steps, ∀ d ∈ s.dependsOn,
        order.indexOf d < order.indexOf s.name) ∧
    topologicalOrder tieGraph = some ["zeta", "alpha"] ∧
    (∀ (client : ResourceClient) (g : Graph) (o : RunOutcome) (order : List String),
      (g.steps.map Step.name).Nodup → run client g = .ok o →
      topologicalOrder g = some order →
      o.results.map StepResult.stepName = order ∧
      ∀ s ∈ g.steps, ∀ d ∈ s.dependsOn,
        (o.results.map StepResult.stepName).indexOf d <
          (o.results.map StepResult.stepName).indexOf s.name) := by
  refine ⟨?_, rfl, ?_⟩
  · intro g order hnd htopo
    exact topologicalOrder_spec hnd htopo
  · intro client g o order hnd hrun htopo
    obtain ⟨order', htopo', hperm, hprec, hmap, hchar⟩ := run_char hnd hrun
    have he : order' = order := by
      rw [htopo] at htopo'
      exact (Option.some.inj htopo').symm
    subst he
    refine ⟨hmap, ?_⟩
    intro s hs d hd
    rw [hmap]
    exact (hprec s hs d hd).1

/-- C4 witness: the topological-order law instantiated on the two-step
dependent graph. -/
theorem C4_topological_order_witness :
    (["w_a", "w_b"] : List String).Perm (wGraph.steps.map Step.name) :=
  (C4_topological_order.1 wGraph ["w_a", "w_b"] (by decide) rfl).1

/-- C5: parameter resolution fails with UnresolvedReferenceError exactly
when the source step has no recorded result, with UpstreamFailedError
exactly when the recorded result is not succeeded, and with
MissingFieldError exactly when the field is absent from the succeeded
output; a resolution error converts to that one step's failed result with
a message and no client invocation; and the Executor only ever appends to
the already-recorded results, leaving siblings unchanged. -/
theorem C5_resolution_errors :
    (∀ (st : RunState) (src path : String),
      resolveParam st (.ref src path) = .error (.unresolvedReference src) ↔
        lookupResult st src = none) ∧
    (∀ (st : RunState) (src path : String),
      resolveParam st (.ref src path) = .error (.upstreamFailed src) ↔
        ∃ r, lookupResult st src = some r ∧ r.status ≠ Status.succeeded) ∧
    (∀ (st : RunState) (src path : String),
      resolveParam st (.ref src path) = .error (.missingField src path) ↔
        ∃ r, lookupResult st src = some r ∧ r.status = Status.succeeded ∧
          r.output.find? (fun p => p.1 == path) = none) ∧
    (∀ (client : ResourceClient) (st : RunState) (s : Step) (e : ResolutionError),
      depBlocked st s = false → resolveParams st s.params = .error e →
      execStep client st s =
        (⟨s.name, .failed, [], some (resolutionErrorMessage e)⟩, none)) ∧
    (∀ (client : ResourceClient) (g : Graph) (ns : List String)
        (st : RunState) (inv : List Invocation),
      ∃ Δ ι, runSteps client g ns st inv = (st ++ Δ, inv ++ ι)) := by
  refine ⟨resolveParam_unresolved_iff, resolveParam_upstream_iff,
    resolveParam_missing_iff, ?_, ?_⟩
  · intro client st s e h1 h2
    exact execStep_of_resolution_error client h1 h2
  · intro client g ns st inv
    exact runSteps_append client g ns st inv

/-- C5 witness: a step whose ValueRef names a never-run source step is
converted to a failed result carrying the unresolved-reference message. -/
theorem C5_resolution_errors_witness :
    execStep noopClient [] w5step =
      (⟨"w5", .failed, [],
        some (resolutionErrorMessage (.unresolvedReference "missing_src"))⟩,
       none) :=
  C5_resolution_errors.2.2.2.1 noopClient [] w5step
    (.unresolvedReference "missing_src") rfl rfl

/-- C6: for every graph accepted by `validate`, `run` returns a report
(never an error) no matter how many steps fail, and `allSucceeded` holds
exactly when no recorded StepResult is failed; a state with skipped but no
failed results still reports `allSucceeded`. -/
theorem C6_run_total_allSucceeded :
    (∀ (client : ResourceClient) (g : Graph), validate g = .ok () →
      ∃ o, run client g = .ok o ∧
        (allSucceeded o.results = true ↔
          ∀ r ∈ o.results, r.status ≠ Status.failed)) ∧
    allSucceeded [⟨"demo_a", .succeeded, [], none⟩,
      ⟨"demo_b", .skipped, [], some skippedMessage⟩] = true := by
  refine ⟨?_, rfl⟩
  intro client g h
  exact ⟨_, run_ok_of_validate client h, allSucceeded_iff _⟩

/-- C6 witness: the totality law instantiated on the validated two-chain
graph with the all-succeeding client. -/
theorem C6_run_total_allSucceeded_witness :
    ∃ o, run noopClient dlpChainsGraph = .ok o ∧
      (allSucceeded o.results = true ↔
        ∀ r ∈ o.results, r.status ≠ Status.failed) :=
  C6_run_total_allSucceeded.1 noopClient dlpChainsGraph rfl

/-- C7: `create_trigger` and `update_trigger` hold the same `JOB_TRIGGER`
dict reference; after the module-level `JOB_TRIGGER["triggers"]`
reassignment both operators see the updated two-day schedule (172800
seconds); neither retains the original one-day schedule (86400 seconds),
which only existed in the initial dict value. -/
theorem C7_job_trigger_aliasing :
    create_trigger.job_trigger_ref = update_trigger.job_trigger_ref ∧
    heldJobTrigger moduleFinalHeap create_trigger =
      heldJobTrigger moduleFinalHeap update_trigger ∧
    heldScheduleSeconds moduleFinalHeap create_trigger = some [172800] ∧
    heldScheduleSeconds moduleFinalHeap update_trigger = some [172800] ∧
    heldScheduleSeconds moduleFinalHeap create_trigger ≠ some [86400] ∧
    heldScheduleSeconds moduleFinalHeap update_trigger ≠ some [86400] ∧
    jobTriggerInit.triggers.map
      (fun t => t.schedule.recurrence_period_duration.seconds) = [86400] := by
  refine ⟨rfl, rfl, rfl, rfl, ?_, ?_, rfl⟩ <;> decide

/-- C8: parameter resolution is a pure function of the Step's params and
the RunState: any two states presenting the same lookup mapping resolve
every parameter list to identical results, so re-running resolution
against an identical RunState is deterministic. -/
theorem C8_resolution_deterministic :
    ∀ (ps : List (String × Param)) (st1 st2 : RunState),
      (∀ n, lookupResult st1 n = lookupResult st2 n) →
      resolveParams st1 ps = resolveParams st2 ps :=
  fun ps _ _ h => resolveParams_ext h ps

/-- C8 witness: two representations of the same RunState mapping resolve
a ValueRef parameter list identically. -/
theorem C8_resolution_deterministic_witness :
    resolveParams w8stateShort [("y", .ref "w8" "f")] =
      resolveParams w8stateLong [("y", .ref "w8" "f")] :=
  C8_resolution_deterministic [("y", .ref "w8" "f")] w8stateShort w8stateLong
    w8state_ext

/-- C9: every successful run records exactly one StepResult per Step (the
recorded names are a duplicate-free permutation of the step names), in
dependency order; all recorded statuses are terminal; and the Executor
only appends to the record state, never mutating a recorded result. -/
theorem C9_step_results_once_immutable :
    (∀ (client : ResourceClient) (g : Graph) (o : RunOutcome),
      (g.steps.map Step.name).Nodup → run client g = .ok o →
      (o.results.map StepResult.stepName).Perm (g.steps.map Step.name) ∧
      (o.results.map StepResult.stepName).Nodup ∧
      (∀ s ∈ g.steps, ∀ d ∈ s.dependsOn,
        (o.results.map StepResult.stepName).indexOf d <
          (o.results.map StepResult.stepName).indexOf s.name) ∧
      (∀ r ∈ o.results, r.status = .succeeded ∨ r.status = .failed ∨
        r.status = .skipped)) ∧
    (∀ (client : ResourceClient) (g : Graph) (ns : List String)
        (st : RunState) (inv : List Invocation),
      ∃ Δ ι, runSteps client g ns st inv = (st ++ Δ, inv ++ ι)) := by
  refine ⟨?_, fun client g ns st inv => runSteps_append client g ns st inv⟩
  intro client g o hnd hrun
  obtain ⟨order, htopo, hperm, hprec, hmap, hchar⟩ := run_char hnd hrun
  refine ⟨by rw [hmap]; exact hperm,
    by rw [hmap]; exact (hperm.nodup_iff).mpr hnd, ?_, ?_⟩
  · intro s hs d hd
    rw [hmap]
    exact (hprec s hs d hd).1
  · intro r _
    cases hstat : r.status with
    | succeeded => exact Or.inl rfl
    | failed => exact Or.inr (Or.inl rfl)
    | skipped => exact Or.inr (Or.inr rfl)

/-- C9 witness: the once-and-in-order law instantiated on the two-step
graph run with the failing client. -/
theorem C9_step_results_once_immutable_witness :
    (wOutcome.results.map StepResult.stepName).Perm
      (wGraph.steps.map Step.name) :=
  (C9_step_results_once_immutable.1 wFailClient wGraph wOutcome
    (by decide) rfl).1

/-- C10: within each of the three DAGs of the module the task_ids are
unique and no task depends on itself, but the task_ids update_info_type
and delete_info_type occur in both the info-type DAG and the job-trigger
DAG, so uniqueness only holds per graph. -/
theorem C10_task_id_uniqueness :
    ((example_gcp_dlp_tasks.map DagTask.task_id).Nodup ∧
     (example_gcp_dlp_info_types_tasks.map DagTask.task_id).Nodup ∧
     (example_gcp_dlp_job_tasks.map DagTask.task_id).Nodup) ∧
    (example_gcp_dlp_tasks.all
        (fun t => !(t.upstream.contains t.task_id)) = true ∧
     example_gcp_dlp_info_types_tasks.all
        (fun t => !(t.upstream.contains t.task_id)) = true ∧
     example_gcp_dlp_job_tasks.all
        (fun t => !(t.upstream.contains t.task_id)) = true) ∧
    ("update_info_type" ∈ example_gcp_dlp_info_types_tasks.map DagTask.task_id ∧
     "update_info_type" ∈ example_gcp_dlp_job_tasks.map DagTask.task_id ∧
     "delete_info_type" ∈ example_gcp_dlp_info_types_tasks.map DagTask.task_id ∧
     "delete_info_type" ∈ example_gcp_dlp_job_tasks.map DagTask.task_id) := by
  decide

end DlpSpec
